/-
Formal verification of the Evolution evolutionary-computation engine (evopy).

Shallow embedding of the core data model and algorithms:
  * individuals and their evaluation state   (src/evopy/individual/base.py)
  * population sorting / insertion / migration (src/evopy/population/base.py)
  * selector best preservation               (src/evopy/selector/base.py)
  * single evaluator error isolation         (src/evopy/evaluator/single.py)
  * elite archive update                     (src/evopy/elite/base.py)
  * NEAT innovation tracking                 (src/evopy/utils/innovation.py)
  * NEAT structural mutations and cycles     (src/evopy/mutator/neural_network/neat.py,
                                              src/evopy/utils/graphs.py)
  * permutation individual operators         (src/evopy/individual/permutation/base.py,
                                              src/evopy/crosser/permutation/pmx.py)

Numeric fitness values are Python floats in the source; they are modelled as
exact rationals together with the IEEE not-a-number element, with the
comparison semantics used by numpy sorting (nan compares as the largest
element, which is how numpy argsort and searchsorted place nan).
-/

import Mathlib

/-- Model of a Python float as used for fitness values: either an exact
rational number or the nan element. -/
inductive PyFloat where
  | num (q : ℚ)
  | nan
deriving DecidableEq

namespace PyFloat

/-- Comparison used by numpy sorting: nan compares as the largest element. -/
def le : PyFloat → PyFloat → Bool
  | num a, num b => decide (a ≤ b)
  | num _, nan => true
  | nan, num _ => false
  | nan, nan => true

/-- Strict comparison matching numpy searchsorted: nan is strictly above
every number and not below anything. -/
def lt : PyFloat → PyFloat → Bool
  | num a, num b => decide (a < b)
  | num _, nan => true
  | nan, _ => false

/-- Negation, as applied by `argsort_scores` for descending populations;
the negation of nan is nan. -/
def neg : PyFloat → PyFloat
  | num a => num (-a)
  | nan => nan

theorem le_trans : ∀ a b c : PyFloat, le a b → le b c → le a c := by
  intro a b c hab hbc
  cases a <;> cases b <;> cases c <;> simp_all [le]
  exact hab.trans hbc

theorem le_total : ∀ a b : PyFloat, le a b || le b a := by
  intro a b
  cases a <;> cases b <;> simp [le]
  exact Rat.le_total

theorem le_of_not_le {a b : PyFloat} (h : ¬ le a b) : le b a := by
  have := le_total a b
  simp_all

end PyFloat

/-- Options relevant to BaseIndividual (src/evopy/individual/base.py):
invalid_fit_value is returned by the fitness property for a non-valid
individual, unevaluated_time by eval_time for an unevaluated one.
Defaults in src/evopy/utils/default_options.py are 0 and 0. -/
structure EvoOptions where
  invalid_fit_value : PyFloat
  unevaluated_time : PyFloat
deriving DecidableEq

/-- State of a BaseIndividual (src/evopy/individual/base.py).
The genome payload of subclasses is not needed for the base-level claims;
evaluation is the (fitness, time, err_eval) triple stored by
register_evaluation. Ids are integers because from_data can store -1. -/
structure Individual where
  ind_id : ℤ
  origin : List String
  is_evaluated : Bool
  evaluation : PyFloat × PyFloat × String
  survived_gen : ℕ
  gen_birth : ℕ
deriving DecidableEq

namespace Individual

/-- err_eval property: the stored error text when evaluated, "None" otherwise. -/
def err_eval (ind : Individual) : String :=
  if ind.is_evaluated then ind.evaluation.2.2 else "None"

/-- is_valid property: evaluated and the stored error text is empty. -/
def is_valid (ind : Individual) : Bool :=
  ind.is_evaluated && (ind.err_eval == "")

/-- fitness property: the stored fitness when valid, else invalid_fit_value. -/
def fitness (opts : EvoOptions) (ind : Individual) : PyFloat :=
  if ind.is_valid then ind.evaluation.1 else opts.invalid_fit_value

/-- eval_time property: the stored time when evaluated, else unevaluated_time. -/
def eval_time (opts : EvoOptions) (ind : Individual) : PyFloat :=
  if ind.is_evaluated then ind.evaluation.2.1 else opts.unevaluated_time

/-- register_evaluation: sets the evaluated flag and stores the triple. -/
def register_evaluation (ind : Individual) (fit time : PyFloat) (err : String) :
    Individual :=
  { ind with is_evaluated := true, evaluation := (fit, time, err) }

/-- transfer_eval_data: copies the evaluation data fields from ind. -/
def transfer_eval_data (copy ind : Individual) : Individual :=
  { copy with
    is_evaluated := ind.is_evaluated
    evaluation := ind.evaluation
    survived_gen := ind.survived_gen
    gen_birth := ind.gen_birth }

/-- Base-level data snapshot produced by get_data: only the origin list. -/
structure IndData where
  origin : List String

/-- from_data (src/evopy/individual/base.py lines 37-66). fresh_id models the
id drawn from the class counter by the cls(options) constructor call.
The line `if set_id := -1:` is a walrus assignment: it rebinds set_id to -1,
which is truthy, so the branch always executes and calls set_new_id(-1),
overwriting the id with -1 regardless of the set_id argument. -/
def from_data (fresh_id : ℤ) (data : IndData) (origin : List String)
    (_set_id : ℤ) : Individual :=
  let new_ind : Individual :=
    { ind_id := fresh_id, origin := ["void"], is_evaluated := false,
      evaluation := (.num 0, .num 0, ""), survived_gen := 0, gen_birth := 0 }
  let new_ind := { new_ind with origin := data.origin }
  let new_ind := { new_ind with origin := origin }
  let set_id : ℤ := -1
  let new_ind := if set_id ≠ 0 then { new_ind with ind_id := set_id } else new_ind
  new_ind

/-- copy (src/evopy/individual/base.py lines 207-215): from_data on the own
data snapshot with set_id equal to the own id, then transfer_eval_data. -/
def copy (fresh_id : ℤ) (ind : Individual) : Individual :=
  let c := from_data fresh_id ⟨ind.origin⟩ ind.origin ind.ind_id
  transfer_eval_data c ind

end Individual

/-- Concrete individual used to exhibit the from_data id slip: id 7, valid
evaluation (fitness 2, time 1, no error), non-trivial origin history. -/
def indC4 : Individual :=
  { ind_id := 7, origin := ["void", "mutation 3"], is_evaluated := true,
    evaluation := (.num 2, .num 1, ""), survived_gen := 4, gen_birth := 2 }

/-- C4: copy() does not return a clone with the same id as the original: the
walrus slip `if set_id := -1:` in from_data always overwrites the id with -1.
At the concrete individual indC4 (id 7, valid evaluation, non-trivial origin)
the copy keeps the evaluation state and the origin list but has id -1. -/
theorem copy_sets_id_to_neg_one :
    (Individual.copy 42 indC4).ind_id = -1 ∧
    (Individual.copy 42 indC4).ind_id ≠ 7 ∧
    (Individual.copy 42 indC4).is_evaluated = true ∧
    (Individual.copy 42 indC4).evaluation = (.num 2, .num 1, "") ∧
    (Individual.copy 42 indC4).origin = ["void", "mutation 3"] := by
  refine ⟨rfl, by decide, rfl, rfl, rfl⟩

/-- Association-list model of a Python dict with integer-pair keys, as used by
InnovationTracker (src/evopy/utils/innovation.py). -/
def dictLookup (m : List ((ℤ × ℤ) × ℕ)) (k : ℤ × ℤ) : Option ℕ :=
  (m.find? (fun e => decide (e.1 = k))).map (·.2)

/-- dict insertion for a key that is not present yet. -/
def dictInsert (m : List ((ℤ × ℤ) × ℕ)) (k : ℤ × ℤ) (v : ℕ) :
    List ((ℤ × ℤ) × ℕ) :=
  m ++ [(k, v)]

theorem dictLookup_insert_self (m : List ((ℤ × ℤ) × ℕ)) (k : ℤ × ℤ) (v : ℕ)
    (h : dictLookup m k = none) : dictLookup (dictInsert m k v) k = some v := by
  induction m with
  | nil => simp [dictLookup, dictInsert, List.find?]
  | cons e rest ih =>
    simp only [dictLookup, dictInsert, List.cons_append, List.find?] at *
    by_cases he : e.1 = k
    · simp [he] at h
    · simp only [he, decide_eq_false, Option.map_eq_map] at *
      simpa using ih (by simpa using h)

/-- State of the InnovationTracker (src/evopy/utils/innovation.py):
two dicts keyed by normalized (in_node_id, out_node_id) pairs, plus the
next-node and next-connection counters. -/
structure InnovationTracker where
  connection_ids : List ((ℤ × ℤ) × ℕ)
  split_node_ids : List ((ℤ × ℤ) × ℕ)
  next_node_id : ℕ
  next_connection_id : ℕ
deriving DecidableEq

namespace InnovationTracker

/-- get_connection_id: returns the stored id for the pair if present, else
stores the current next_connection_id and increments the counter. -/
def get_connection_id (t : InnovationTracker) (in_node_id out_node_id : ℤ) :
    ℕ × InnovationTracker :=
  let key := (in_node_id, out_node_id)
  match dictLookup t.connection_ids key with
  | some v => (v, t)
  | none =>
    (t.next_connection_id,
     { t with
       connection_ids := dictInsert t.connection_ids key t.next_connection_id
       next_connection_id := t.next_connection_id + 1 })

/-- get_split_node_id: the same pattern over the separate node-id counter. -/
def get_split_node_id (t : InnovationTracker) (in_node_id out_node_id : ℤ) :
    ℕ × InnovationTracker :=
  let key := (in_node_id, out_node_id)
  match dictLookup t.split_node_ids key with
  | some v => (v, t)
  | none =>
    (t.next_node_id,
     { t with
       split_node_ids := dictInsert t.split_node_ids key t.next_node_id
       next_node_id := t.next_node_id + 1 })

end InnovationTracker

/-- C6: for a pair (i, o) not yet tracked, the first get_connection_id call
returns the current next_connection_id and increments that counter (leaving
the node counter alone), and a second call with the same pair returns the
same id without changing the state; the same holds for get_split_node_id
over the separate node-id counter. -/
theorem innovation_tracker_idempotent (t : InnovationTracker) (i o p q : ℤ)
    (hc : dictLookup t.connection_ids (i, o) = none)
    (hs : dictLookup t.split_node_ids (p, q) = none) :
    (t.get_connection_id i o).1 = t.next_connection_id ∧
    (t.get_connection_id i o).2.next_connection_id = t.next_connection_id + 1 ∧
    (t.get_connection_id i o).2.next_node_id = t.next_node_id ∧
    ((t.get_connection_id i o).2.get_connection_id i o) =
      ((t.get_connection_id i o).1, (t.get_connection_id i o).2) ∧
    (t.get_split_node_id p q).1 = t.next_node_id ∧
    (t.get_split_node_id p q).2.next_node_id = t.next_node_id + 1 ∧
    (t.get_split_node_id p q).2.next_connection_id = t.next_connection_id ∧
    ((t.get_split_node_id p q).2.get_split_node_id p q) =
      ((t.get_split_node_id p q).1, (t.get_split_node_id p q).2) := by
  have hc2 := dictLookup_insert_self t.connection_ids (i, o)
    t.next_connection_id hc
  have hs2 := dictLookup_insert_self t.split_node_ids (p, q) t.next_node_id hs
  simp only [InnovationTracker.get_connection_id,
    InnovationTracker.get_split_node_id, hc, hs, hc2, hs2]
  simp

/-- Witness for C6 at the empty tracker and the pairs (0, 1), (2, 3). -/
theorem innovation_tracker_idempotent_witness :
    dictLookup (InnovationTracker.mk [] [] 0 0).connection_ids (0, 1) = none ∧
    ((InnovationTracker.mk [] [] 0 0).get_connection_id 0 1).1 = 0 ∧
    (((InnovationTracker.mk [] [] 0 0).get_connection_id 0 1).2.get_connection_id
      0 1).1 = 0 := by
  refine ⟨rfl, ?_, ?_⟩
  · exact (innovation_tracker_idempotent (InnovationTracker.mk [] [] 0 0)
      0 1 2 3 rfl rfl).1
  · have h := (innovation_tracker_idempotent (InnovationTracker.mk [] [] 0 0)
      0 1 2 3 rfl rfl)
    rw [h.2.2.2.1, h.1]

/-- Direction-adjusted sort key used by argsort_scores
(src/evopy/population/base.py lines 192-199): scores are negated for a
descending population, then argsorted ascending; nan stays nan under
negation and therefore always sorts last. -/
def score_key (ascending_order : Bool) (s : PyFloat) : PyFloat :=
  if ascending_order then s else s.neg

/-- Comparison induced on individuals by argsort over direction-adjusted
fitness values. -/
def fitLE (opts : EvoOptions) (ascending_order : Bool) (a b : Individual) :
    Prop :=
  PyFloat.le (score_key ascending_order (a.fitness opts))
    (score_key ascending_order (b.fitness opts)) = true

instance (opts : EvoOptions) (asc : Bool) : DecidableRel (fitLE opts asc) :=
  fun _ _ => inferInstanceAs (Decidable (_ = true))

instance (opts : EvoOptions) (asc : Bool) : IsTrans Individual (fitLE opts asc) :=
  ⟨fun _ _ _ hab hbc => PyFloat.le_trans _ _ _ hab hbc⟩

instance (opts : EvoOptions) (asc : Bool) : IsTotal Individual (fitLE opts asc) := by
  constructor
  intro a b
  have := PyFloat.le_total (score_key asc (a.fitness opts))
    (score_key asc (b.fitness opts))
  rcases Bool.or_eq_true_iff.mp this with h | h
  · exact Or.inl h
  · exact Or.inr h

/-- sort_sample (src/evopy/population/base.py lines 184-190): reorder a
sample by argsort of its direction-adjusted fitness values. The embedding
sorts with insertion sort; numpy argsort uses a different algorithm, but
only the resulting order by the adjusted key is observable in the verified
claims (the relative order of exactly tied keys is unspecified by numpy
default quicksort). -/
def sort_sample (opts : EvoOptions) (ascending_order : Bool)
    (sample : List Individual) : List Individual :=
  sample.insertionSort (fitLE opts ascending_order)

/-- Population state (src/evopy/population/base.py): the individual list,
the sorted flag, and the configuration fields used by the verified
operations. -/
structure Population where
  population : List Individual
  sorted : Bool
  keep_sorted : Bool
  ascending_order : Bool
  immigration_rate : ℚ
deriving DecidableEq

namespace Population

/-- fitness_values of the population in order. -/
def fitness_values (opts : EvoOptions) (p : Population) : List PyFloat :=
  p.population.map (Individual.fitness opts)

/-- sort(): full resort of the population by fitness, setting the sorted
flag. -/
def sort (opts : EvoOptions) (p : Population) : Population :=
  { p with population := sort_sample opts p.ascending_order p.population,
           sorted := true }

/-- update_order(): resort only when the population is kept sorted. -/
def update_order (opts : EvoOptions) (p : Population) : Population :=
  if p.keep_sorted then p.sort opts else p

end Population

/-- Unevaluated individual with a given id: the state of a freshly created
individual as far as the base-level fields are concerned. -/
def freshInd (n : ℤ) : Individual :=
  { ind_id := n, origin := ["void"], is_evaluated := false,
    evaluation := (.num 0, .num 0, ""), survived_gen := 0, gen_birth := 0 }

/-- Valid individual with a given id and rational fitness. -/
def validInd (n : ℤ) (q : ℚ) : Individual :=
  { ind_id := n, origin := ["void"], is_evaluated := true,
    evaluation := (.num q, .num 0, ""), survived_gen := 0, gen_birth := 0 }

/-- Options with the default sentinel values invalid_fit_value = 0 and
unevaluated_time = 0 (src/evopy/utils/default_options.py). -/
def defaultOpts : EvoOptions := { invalid_fit_value := .num 0,
                                  unevaluated_time := .num 0 }

/-- C10 counterexample: with the default invalid_fit_value = 0 sentinel and
an ascending (smaller-is-better) population, sort() places an unevaluated
individual strictly BEFORE a valid individual of fitness 5, because the
invalid individual contributes the sentinel 0 as its fitness value; the
claim that invalid individuals sort strictly after all valid ones is false
for this population. -/
theorem sort_puts_invalid_first_with_default_sentinel :
    sort_sample defaultOpts true [validInd 0 5, freshInd 1] =
      [freshInd 1, validInd 0 5] ∧
    (freshInd 1).is_valid = false ∧
    (validInd 0 5).is_valid = true := by
  refine ⟨?_, rfl, rfl⟩
  decide

theorem PyFloat.le_refl (a : PyFloat) : PyFloat.le a a = true := by
  cases a <;> simp [PyFloat.le]

theorem PyFloat.eq_nan_of_nan_le {a : PyFloat} (h : PyFloat.le .nan a = true) :
    a = .nan := by
  cases a <;> simp_all [PyFloat.le]

theorem score_key_eq_nan_iff (asc : Bool) (a : PyFloat) :
    score_key asc a = .nan ↔ a = .nan := by
  cases a <;> cases asc <;> simp [score_key, PyFloat.neg]

/-- C10 amended: sort() orders the population by effective fitness, where a
non-valid individual contributes the configured invalid_fit_value sentinel;
when that sentinel is nan (which numpy argsort places last in both
directions) and every valid individual carries a numeric fitness, every
invalid individual ends up strictly after every valid one. -/
theorem sort_invalid_last_with_nan_sentinel (opts : EvoOptions) (asc : Bool)
    (pop : List Individual)
    (hnan : opts.invalid_fit_value = .nan)
    (hval : ∀ ind ∈ pop, ind.is_valid = true → ind.evaluation.1 ≠ .nan) :
    (sort_sample opts asc pop).Pairwise
      (fun a b => a.is_valid = false → b.is_valid = false) := by
  have hs : (sort_sample opts asc pop).Pairwise (fitLE opts asc) :=
    List.sorted_insertionSort (fitLE opts asc) pop
  refine hs.imp_of_mem ?_
  intro a b ha hb hab hainv
  rw [sort_sample, List.mem_insertionSort] at ha hb
  by_contra hbval
  have hbval2 : b.is_valid = true := by
    cases hb2 : b.is_valid
    · exact absurd hb2 hbval
    · rfl
  have hfa : a.fitness opts = .nan := by
    unfold Individual.fitness
    rw [hainv]
    simpa using hnan
  have hkey : score_key asc (b.fitness opts) = .nan := by
    apply PyFloat.eq_nan_of_nan_le
    have := hab
    unfold fitLE at this
    rwa [hfa, (score_key_eq_nan_iff asc _).mpr rfl] at this
  have hfb : b.fitness opts = .nan := (score_key_eq_nan_iff asc _).mp hkey
  have : b.evaluation.1 = .nan := by
    unfold Individual.fitness at hfb
    rwa [if_pos hbval2] at hfb
  exact hval b hb hbval2 this

/-- Witness for C10 amended at a two-element population with nan sentinel. -/
theorem sort_invalid_last_with_nan_sentinel_witness :
    (EvoOptions.mk .nan (.num 0)).invalid_fit_value = .nan ∧
    (sort_sample (EvoOptions.mk .nan (.num 0)) true
        [freshInd 1, validInd 0 5]).Pairwise
      (fun a b => a.is_valid = false → b.is_valid = false) := by
  refine ⟨rfl, ?_⟩
  exact sort_invalid_last_with_nan_sentinel (EvoOptions.mk .nan (.num 0)) true
    [freshInd 1, validInd 0 5] rfl (by decide)

/-- compute_score (src/evopy/elite/base.py line 62): the fitness of the
individual. -/
def compute_score (opts : EvoOptions) (ind : Individual) : PyFloat :=
  ind.fitness opts

/-- Comparison induced on (entry, score) pairs by argsort_scores over the
stored score values. -/
def scoreLE (ascending_order : Bool) (a b : Individual × PyFloat) : Prop :=
  PyFloat.le (score_key ascending_order a.2) (score_key ascending_order b.2) =
    true

instance (asc : Bool) : DecidableRel (scoreLE asc) :=
  fun _ _ => inferInstanceAs (Decidable (_ = true))

instance (asc : Bool) : IsTrans (Individual × PyFloat) (scoreLE asc) :=
  ⟨fun _ _ _ hab hbc => PyFloat.le_trans _ _ _ hab hbc⟩

instance (asc : Bool) : IsTotal (Individual × PyFloat) (scoreLE asc) := by
  constructor
  intro a b
  have := PyFloat.le_total (score_key asc a.2) (score_key asc b.2)
  rcases Bool.or_eq_true_iff.mp this with h | h
  · exact Or.inl h
  · exact Or.inr h

/-- BaseElite.update (src/evopy/elite/base.py lines 31-44): sort the
population, concatenate its freshly computed scores with the stored elite
scores, argsort the whole score vector under the population ordering
direction, and retain the first elite_size entries, pairing population
indices with fresh copies and elite indices with the stored entries. -/
def elite_update (opts : EvoOptions) (ascending_order : Bool)
    (elite_size : ℕ) (elite : List (Individual × PyFloat))
    (pop : List Individual) : List (Individual × PyFloat) :=
  let sorted_pop := sort_sample opts ascending_order pop
  let outsiders := sorted_pop.map
    (fun ind => (Individual.copy 0 ind, compute_score opts ind))
  let complete := outsiders ++ elite
  (complete.insertionSort (scoreLE ascending_order)).take elite_size

/-- C7: after elite_update the elite holds at most elite_size entries and is
sorted best-first under the population ordering direction; and whenever the
previous elite was non-empty and elite_size is positive, the score of the
new first entry is at least as good (in the direction-adjusted order) as
the score of the previous first entry: the best score never regresses. -/
theorem elite_update_invariants (opts : EvoOptions) (asc : Bool)
    (elite_size : ℕ) (elite : List (Individual × PyFloat))
    (pop : List Individual) (e₀ : Individual × PyFloat)
    (he : elite.head? = some e₀) (hK : 0 < elite_size) :
    (elite_update opts asc elite_size elite pop).length ≤ elite_size ∧
    (elite_update opts asc elite_size elite pop).Pairwise (scoreLE asc) ∧
    ∃ e₁, (elite_update opts asc elite_size elite pop).head? = some e₁ ∧
      scoreLE asc e₁ e₀ := by
  have hsorted :
      ((((sort_sample opts asc pop).map
          (fun ind => (Individual.copy 0 ind, compute_score opts ind))) ++
        elite).insertionSort (scoreLE asc)).Pairwise (scoreLE asc) :=
    List.sorted_insertionSort (scoreLE asc) _
  refine ⟨?_, ?_, ?_⟩
  · simp [elite_update]
  · exact hsorted.sublist (List.take_sublist _ _)
  · have he₀mem :
        e₀ ∈ (((sort_sample opts asc pop).map
            (fun ind => (Individual.copy 0 ind, compute_score opts ind))) ++
          elite).insertionSort (scoreLE asc) := by
      rw [List.mem_insertionSort, List.mem_append]
      exact Or.inr (List.mem_of_mem_head? he)
    cases hsort_eq :
        (((sort_sample opts asc pop).map
            (fun ind => (Individual.copy 0 ind, compute_score opts ind))) ++
          elite).insertionSort (scoreLE asc) with
    | nil => rw [hsort_eq] at he₀mem; cases he₀mem
    | cons h t =>
      refine ⟨h, ?_, ?_⟩
      · rw [elite_update]
        simp only [hsort_eq]
        cases elite_size with
        | zero => cases hK
        | succ k => simp [List.take]
      · rw [hsort_eq] at he₀mem hsorted
        rcases List.mem_cons.mp he₀mem with rfl | hmem
        · exact PyFloat.le_refl _
        · exact (List.pairwise_cons.mp hsorted).1 e₀ hmem

/-- Witness for C7 at a concrete previous elite and population: capacity 2,
previous elite holding one entry of score 3, population of two valid
individuals with fitness 5 and 1, ascending (smaller-is-better) order. -/
theorem elite_update_invariants_witness :
    ([(validInd 9 3, PyFloat.num 3)].head? = some (validInd 9 3, PyFloat.num 3)) ∧
    (elite_update defaultOpts true 2 [(validInd 9 3, PyFloat.num 3)]
      [validInd 0 5, validInd 1 1]).length ≤ 2 ∧
    (∃ e₁, (elite_update defaultOpts true 2 [(validInd 9 3, PyFloat.num 3)]
        [validInd 0 5, validInd 1 1]).head? = some e₁ ∧
      scoreLE true e₁ (validInd 9 3, PyFloat.num 3)) := by
  have h := elite_update_invariants defaultOpts true 2
    [(validInd 9 3, PyFloat.num 3)] [validInd 0 5, validInd 1 1]
    (validInd 9 3, PyFloat.num 3) rfl (by decide)
  exact ⟨rfl, h.1, h.2.2⟩

/-- np.searchsorted(a, v, side left) on an ascending array: the first index
whose element is not strictly below v, or the length when every element is
below v. -/
def searchsorted_left (l : List PyFloat) (v : PyFloat) : ℕ :=
  l.findIdx (fun x => ! PyFloat.lt x v)

/-- Python list.insert semantics: a negative index counts from the end and
clamps at 0, an index beyond the end appends. -/
def pyInsert (l : List Individual) (i : ℤ) (x : Individual) : List Individual :=
  let pos : ℕ := if i < 0 then (l.length + i).toNat else min i.toNat l.length
  l.insertIdx pos x

namespace Population

/-- rank_of_fitness (src/evopy/population/base.py lines 166-174): binary
search of the fitness in the population fitness values; for a descending
population the values are reversed (making them ascending) and the result
is size - searchsorted(reversed, fit) - 1. -/
def rank_of_fitness (opts : EvoOptions) (p : Population) (fit : PyFloat) : ℤ :=
  let fitness_values := p.fitness_values opts
  if p.ascending_order then (searchsorted_left fitness_values fit : ℤ)
  else (p.population.length : ℤ) -
    (searchsorted_left fitness_values.reverse fit : ℤ) - 1

/-- add_individual (src/evopy/population/base.py lines 144-157): a valid
individual entering a kept-sorted, currently sorted population is inserted
at rank_of_fitness; entering a kept-sorted unsorted population it is
appended and the population resorted; otherwise it is appended and the
population marked unsorted. -/
def add_individual (opts : EvoOptions) (p : Population) (ind : Individual) :
    Population :=
  if ind.is_valid && p.keep_sorted then
    if p.sorted then
      { p with population :=
          pyInsert p.population (p.rank_of_fitness opts (ind.fitness opts)) ind }
    else
      Population.sort opts { p with population := p.population ++ [ind] }
  else
    { p with sorted := false, population := p.population ++ [ind] }

/-- migrate (src/evopy/population/base.py lines 79-92): compute
int(size * immigration_rate) immigrants (python int() truncates toward
zero, which agrees with the floor for the non-negative rates the option
accepts), and, when positive, mark the population unsorted, add that many
freshly created individuals through add_individual, and re-sort when the
population is kept sorted. The fresh list holds the freshly created
individuals in creation order. -/
def migrate (opts : EvoOptions) (p : Population) (fresh : List Individual) :
    Population :=
  let immigrated : ℕ := ((p.population.length : ℚ) * p.immigration_rate).floor.toNat
  if 0 < immigrated then
    let p1 : Population := { p with sorted := false }
    let p2 := fresh.foldl (fun acc ind => add_individual opts acc ind) p1
    p2.update_order opts
  else p

end Population

theorem foldl_add_unevaluated (opts : EvoOptions) (fresh : List Individual)
    (p : Population) (hfresh : ∀ f ∈ fresh, f.is_evaluated = false) :
    (fresh.foldl (fun acc ind => Population.add_individual opts acc ind)
      p).population = p.population ++ fresh := by
  induction fresh generalizing p with
  | nil => simp
  | cons f rest ih =>
    have hf : f.is_evaluated = false := hfresh f (List.mem_cons_self f rest)
    have hval : f.is_valid = false := by
      simp [Individual.is_valid, hf]
    rw [List.foldl_cons]
    rw [ih _ (fun g hg => hfresh g (List.mem_cons_of_mem f hg))]
    simp [Population.add_individual, hval]


/-- C8 amended: migrate() adds exactly int(size * immigration_rate) freshly
created individuals to the population (never reusing earlier immigrants:
the fresh list is created by this call), so the resulting population is a
permutation of the old population plus the immigrants and its size grows by
that amount; no slot of the previous population is replaced. -/
theorem migrate_appends_fresh (opts : EvoOptions) (p : Population)
    (fresh : List Individual)
    (hlen : fresh.length =
      ((p.population.length : ℚ) * p.immigration_rate).floor.toNat)
    (hfresh : ∀ f ∈ fresh, f.is_evaluated = false) :
    (p.migrate opts fresh).population.Perm (p.population ++ fresh) ∧
    (p.migrate opts fresh).population.length = p.population.length +
      ((p.population.length : ℚ) * p.immigration_rate).floor.toNat := by
  simp only [Population.migrate]
  by_cases hpos :
      0 < ((p.population.length : ℚ) * p.immigration_rate).floor.toNat
  · rw [if_pos hpos]
    have hfold := foldl_add_unevaluated opts fresh { p with sorted := false }
      hfresh
    have hperm :
        ((fresh.foldl (fun acc ind => Population.add_individual opts acc ind)
          { p with sorted := false }).update_order opts).population.Perm
          (p.population ++ fresh) := by
      unfold Population.update_order
      by_cases hks :
          (fresh.foldl (fun acc ind => Population.add_individual opts acc ind)
            { p with sorted := false }).keep_sorted
      · rw [if_pos hks]
        unfold Population.sort sort_sample
        exact (List.perm_insertionSort _ _).trans (by rw [hfold])
      · rw [if_neg hks]
        rw [hfold]
    refine ⟨hperm, ?_⟩
    rw [hperm.length_eq]
    simp [hlen]
  · rw [if_neg hpos]
    have h0 : fresh.length = 0 := by omega
    obtain rfl := List.length_eq_zero.mp h0
    refine ⟨by simp, by omega⟩

/-- Concrete population for the migration claims: two unevaluated
individuals, not kept sorted, immigration rate one half. -/
def popC8 : Population :=
  { population := [freshInd 0, freshInd 1], sorted := false,
    keep_sorted := false, ascending_order := true, immigration_rate := 1/2 }

/-- Witness for C8 amended at popC8 with one fresh immigrant: the
population grows from 2 to 3. -/
theorem migrate_appends_fresh_witness :
    ([freshInd 2].length =
      ((popC8.population.length : ℚ) * popC8.immigration_rate).floor.toNat) ∧
    (popC8.migrate defaultOpts [freshInd 2]).population.length = 3 := by
  have hlen : ([freshInd 2] : List Individual).length =
      ((popC8.population.length : ℚ) * popC8.immigration_rate).floor.toNat := by
    norm_num [popC8, Rat.floor_def']
  have h := migrate_appends_fresh defaultOpts popC8 [freshInd 2] hlen
    (by decide)
  refine ⟨hlen, ?_⟩
  rw [h.2]
  norm_num [popC8, Rat.floor_def']

/-- C8 counterexample: the claim states migration replaces slots and leaves
the population size unchanged; on popC8 (size 2, immigration rate one half)
migrate() appends the immigrant and the size becomes 3. -/
theorem migrate_changes_population_size :
    (popC8.migrate defaultOpts [freshInd 2]).population.length ≠
      popC8.population.length := by
  have him : ((popC8.population.length : ℚ) *
      popC8.immigration_rate).floor.toNat = 1 := by
    norm_num [popC8, Rat.floor_def']
  simp only [Population.migrate, him]
  decide

/-- Concrete descending, kept-sorted, sorted population with valid
individuals of fitness 5, 3, 1. -/
def popC9 : Population :=
  { population := [validInd 0 5, validInd 1 3, validInd 2 1], sorted := true,
    keep_sorted := true, ascending_order := false, immigration_rate := 0 }

/-- C9: inserting a valid individual of fitness 2 into the descending sorted
population (5, 3, 1) through add_individual computes rank 1 instead of the
order-preserving rank 2 (the descending branch of rank_of_fitness returns
size - searchsorted(reversed, fit) - 1, one slot short of the mirrored
insertion point size - searchsorted(reversed, fit)), so the population
fitness sequence becomes (5, 2, 3, 1): no longer sorted in the configured
descending direction even though the sorted flag stays set. -/
theorem add_individual_breaks_descending_sort :
    popC9.rank_of_fitness defaultOpts (.num 2) = 1 ∧
    ((popC9.add_individual defaultOpts (validInd 3 2)).population.map
      (Individual.fitness defaultOpts)) = [.num 5, .num 2, .num 3, .num 1] ∧
    (popC9.add_individual defaultOpts (validInd 3 2)).sorted = true ∧
    ¬ (((popC9.add_individual defaultOpts (validInd 3 2)).population.map
        (Individual.fitness defaultOpts)).Pairwise
      (fun a b => PyFloat.le b a = true)) := by
  refine ⟨by decide, by decide, by decide, by decide⟩

/-- Per-individual body of SingleEvaluator._evaluate_pop
(src/evopy/evaluator/single.py lines 30-49): already-evaluated individuals
are skipped; otherwise the evaluation callback runs, and a failure (the
application-defined IgnoreException error channel, modelled as the Except
error case carrying str(exception)) is caught locally: fitness is set to
0.0 and the error text recorded through register_evaluation. The measured
wall-clock evaluation time is modelled as 0. -/
def evalStep (f : Individual → Except String PyFloat) (ind : Individual) :
    Individual :=
  if ind.is_evaluated then ind
  else
    match f ind with
    | .ok fit => ind.register_evaluation fit (.num 0) ""
    | .error e => ind.register_evaluation (.num 0) (.num 0) e

/-- _evaluate_pop: every individual of the population goes through evalStep
in place, then update_order re-sorts if the population is kept sorted. -/
def evaluate_pop (opts : EvoOptions) (f : Individual → Except String PyFloat)
    (p : Population) : Population :=
  Population.update_order opts
    { p with population := p.population.map (evalStep f) }

/-- C5 amended: the evaluation phase maps every individual through the
per-individual try/except body, so a callback failure never aborts the
phase and the population keeps its size; an unevaluated individual whose
callback fails with a non-empty error text ends up evaluated, carrying that
error text, and invalid. (With an empty error text the individual is
wrongly marked valid, see the counterexample.) -/
theorem evaluator_isolates_failures (opts : EvoOptions)
    (f : Individual → Except String PyFloat) (p : Population) :
    (evaluate_pop opts f p).population.Perm (p.population.map (evalStep f)) ∧
    (evaluate_pop opts f p).population.length = p.population.length ∧
    (∀ ind e, ind.is_evaluated = false → f ind = .error e → e ≠ "" →
      (evalStep f ind).is_evaluated = true ∧
      (evalStep f ind).err_eval = e ∧
      (evalStep f ind).is_valid = false) := by
  have hperm : (evaluate_pop opts f p).population.Perm
      (p.population.map (evalStep f)) := by
    unfold evaluate_pop Population.update_order
    by_cases hks : p.keep_sorted
    · simp only [hks, if_pos]
      unfold Population.sort sort_sample
      exact List.perm_insertionSort _ _
    · simp only [hks]
      rw [if_neg (by simp [hks])]
  refine ⟨hperm, ?_, ?_⟩
  · rw [hperm.length_eq, List.length_map]
  · intro ind e hun hf he
    unfold evalStep
    rw [if_neg (by simp [hun]), hf]
    refine ⟨rfl, ?_, ?_⟩
    · simp [Individual.register_evaluation, Individual.err_eval]
    · simp [Individual.register_evaluation, Individual.is_valid,
        Individual.err_eval, he]

/-- Concrete callback for the C5 witness: fails with text "boom" on the
individual with id 0, succeeds with fitness 1 elsewhere. -/
def fC5 (i : Individual) : Except String PyFloat :=
  if i.ind_id = 0 then Except.error "boom" else Except.ok (PyFloat.num 1)

/-- Concrete two-individual unevaluated population for the C5 witness. -/
def popC5 : Population :=
  { population := [freshInd 0, freshInd 1], sorted := false,
    keep_sorted := false, ascending_order := true, immigration_rate := 0 }

/-- Witness for C5 amended: after the phase both individuals are processed
and the failing one is invalid with the error text recorded. -/
theorem evaluator_isolates_failures_witness :
    fC5 (freshInd 0) = Except.error "boom" ∧
    (evaluate_pop defaultOpts fC5 popC5).population.length = 2 ∧
    (evalStep fC5 (freshInd 0)).err_eval = "boom" ∧
    (evalStep fC5 (freshInd 0)).is_valid = false := by
  have h := evaluator_isolates_failures defaultOpts fC5 popC5
  have h3 := h.2.2 (freshInd 0) "boom" rfl rfl (by decide)
  refine ⟨rfl, ?_, h3.2.1, h3.2.2⟩
  rw [h.2.1]
  rfl

/-- C5 counterexample: a callback failure carrying an empty error text is
recorded as a successful evaluation: err_eval becomes the empty string,
which is exactly the is_valid success test, so the individual ends up
valid with fitness 0 instead of invalid. -/
theorem empty_error_text_marks_individual_valid :
    (freshInd 0).is_evaluated = false ∧
    (evalStep (fun _ => Except.error "") (freshInd 0)).is_valid = true ∧
    (evalStep (fun _ => Except.error "") (freshInd 0)).evaluation.1 =
      PyFloat.num 0 := by
  refine ⟨rfl, rfl, rfl⟩

/-- _is_best_included (src/evopy/selector/base.py lines 142-148): with
_compute_selection_set (true whenever keep_best is set or invalid are
disallowed) membership is tested on the id set of selected individuals,
otherwise by the `in` operator, which uses the Individual __eq__ defined as
id equality. -/
def is_best_included (compute_selection_set : Bool) (pre_selected_set : List ℤ)
    (best : Individual) (selected : List Individual) : Bool :=
  if compute_selection_set then pre_selected_set.contains best.ind_id
  else selected.any (fun x => x.ind_id == best.ind_id)

/-- best_preservation (src/evopy/selector/base.py lines 84-91), modelled as
the list the caller of best_preservation observes afterwards: when the best
individual is not yet included and the selection is already full under
limit_size, the statement `selected = selected[:-1]` rebinds the local name
to a slice copy and the following append mutates that copy, so the
caller-visible list stays unchanged; only in the non-full (or unlimited)
case does the append reach the caller-visible list. -/
def best_preservation (limit_size : Bool) (n_selected : ℕ)
    (compute_selection_set : Bool) (pre_selected_set : List ℤ)
    (selected : List Individual) (best : Individual) : List Individual :=
  if is_best_included compute_selection_set pre_selected_set best selected then
    selected
  else if selected.length == n_selected && limit_size then
    selected
  else
    selected ++ [best]

/-- C2: with keep_best set (so membership is tested on the id set), a full
selection under limit_size does not receive the population best at all: the
claim that the best replaces the last selected slot fails because the slice
rebinding loses the append. Here the selection of size 1 = n_selected holds
only the individual with id 0 while the best has id 1; the returned list is
unchanged and does not contain the best. -/
theorem best_preservation_drops_best :
    best_preservation true 1 true [0] [validInd 0 1] (validInd 1 5) =
      [validInd 0 1] ∧
    validInd 1 5 ∉
      best_preservation true 1 true [0] [validInd 0 1] (validInd 1 5) := by
  refine ⟨rfl, by decide⟩

/-- ConnectionGene of a NEAT genome
(src/evopy/individual/neural_network/neat.py): innovation id, source and
target node ids, weight, enabled flag. -/
structure ConnectionGene where
  gene_id : ℕ
  in_node : ℕ
  out_node : ℕ
  weight : ℚ
  enabled : Bool
deriving DecidableEq

/-- The (source, target) pairs of the enabled connections, the edge set fed
to creates_cycle by NEATMutator._add_connection. -/
def enabled_pairs (conns : List ConnectionGene) : List (ℕ × ℕ) :=
  (conns.filter (·.enabled)).map (fun c => (c.in_node, c.out_node))

/-- One pass of the creates_cycle while-loop
(src/evopy/utils/graphs.py lines 19-36): scan the connections once, adding
every target whose source is already visited; the Python inner loop also
adds during the scan, which the fold reproduces. -/
def cycle_pass (conns : List (ℕ × ℕ)) (visited : List ℕ) : List ℕ :=
  conns.foldl
    (fun vis c =>
      if vis.contains c.1 && ! vis.contains c.2 then vis ++ [c.2] else vis)
    visited

/-- The while-loop of creates_cycle run to its fixpoint. Every pass either
adds at least one node or reaches the fixpoint, and only targets of
connections are ever added, so length conns + 1 passes always suffice; the
fuel argument makes the recursion structural. -/
def cycle_search : ℕ → List (ℕ × ℕ) → List ℕ → List ℕ
  | 0, _, visited => visited
  | fuel + 1, conns, visited =>
    let visited2 := cycle_pass conns visited
    if visited2.length = visited.length then visited
    else cycle_search fuel conns visited2

/-- creates_cycle (src/evopy/utils/graphs.py lines 4-37): adding the test
edge (i, o) to an acyclic graph creates a cycle exactly when i = o or i
becomes reachable from o; the Python early return on b = i is equivalent to
membership of i in the final visited set, because i enters the visited set
only through that very test. -/
def creates_cycle (connections : List (ℕ × ℕ)) (test : ℕ × ℕ) : Bool :=
  if test.1 = test.2 then true
  else (cycle_search (connections.length + 1) connections [test.2]).contains
    test.1

/-- NEAT genome as seen by the structural mutations: node genes are
(id, type) pairs, connection genes as above. -/
structure NEATGenome where
  nodes : List (ℕ × String)
  connections : List ConnectionGene
deriving DecidableEq

/-- NEATMutator._add_connection
(src/evopy/mutator/neural_network/neat.py lines 82-104), with the two
randomly drawn nodes passed explicitly. If the drawn pair already exists as
a connection, a disabled connection is simply re-enabled WITHOUT any cycle
check; only a brand-new connection goes through creates_cycle over the
enabled edges before being linked. fresh_conn_id and w model the innovation
id and random weight of the new connection. -/
def add_connection (g : NEATGenome) (in_id out_id : ℕ) (fresh_conn_id : ℕ)
    (w : ℚ) : NEATGenome × Bool :=
  if in_id = out_id then (g, false)
  else
    match g.connections.find?
        (fun c => c.in_node == in_id && c.out_node == out_id) with
    | some c =>
      if ! c.enabled then
        let upd := g.connections.map
          (fun d => if d == c then { d with enabled := true } else d)
        ({ g with connections := upd }, true)
      else (g, false)
    | none =>
      if creates_cycle (enabled_pairs g.connections) (in_id, out_id) then
        (g, false)
      else
        ({ g with connections :=
            g.connections ++ [⟨fresh_conn_id, in_id, out_id, w, true⟩] }, true)

/-- NEATMutator._toggle_connection
(src/evopy/mutator/neural_network/neat.py lines 142-149), with the randomly
drawn connection passed as an index: its enabled flag is flipped with no
cycle check of any kind. -/
def toggle_connection (g : NEATGenome) (idx : ℕ) : NEATGenome × Bool :=
  if g.connections.isEmpty then (g, false)
  else
    let upd := g.connections.modify (fun c => { c with enabled := !c.enabled })
      idx
    ({ g with connections := upd }, true)

/-- List of nodes reachable from src along the given edges (the creates_cycle
search run from a singleton). -/
def reachable_from (edges : List (ℕ × ℕ)) (src : ℕ) : List ℕ :=
  cycle_search (edges.length + 1) edges [src]

/-- A directed graph has a cycle exactly when some edge closes a path from
its target back to its source; this executable test is the acyclicity
check used to state the NEAT feed-forward invariant. -/
def has_enabled_cycle (g : NEATGenome) : Bool :=
  (enabled_pairs g.connections).any
    (fun e => e.1 == e.2 ||
      (reachable_from (enabled_pairs g.connections) e.2).contains e.1)

/-- Initial NEAT genome for one input node 0 and one output node 1: the
NEATIndividual constructor links every input to every output with an
enabled connection. -/
def neatStart : NEATGenome :=
  { nodes := [(0, "input"), (1, "output")],
    connections := [⟨0, 0, 1, 0, true⟩] }

/-- neatStart after toggling its only connection off. -/
def neatStep1 : NEATGenome := (toggle_connection neatStart 0).1

/-- neatStep1 after adding the reverse connection 1 to 0: the cycle check
sees an empty enabled edge set, so the enabled connection is added. -/
def neatStep2 : NEATGenome := (add_connection neatStep1 1 0 1 0).1

/-- neatStep2 after calling _add_connection on the pair (0, 1) again: the
existing disabled connection is re-enabled without a cycle check. -/
def neatStep3 : NEATGenome := (add_connection neatStep2 0 1 2 0).1

/-- C1: the enabled-connection subgraph does not remain acyclic under
_toggle_connection, nor under the re-enable branch of _add_connection.
Starting from the constructor genome (input 0, output 1, enabled connection
0 to 1), toggling the connection off, adding the reverse connection 1 to 0
(accepted: the cycle check only sees the enabled edges) and then either
toggling the first connection back on or calling _add_connection(0, 1)
(which re-enables it without any cycle check) yields an enabled cycle
0 to 1 to 0, although the enabled subgraph was acyclic before that final
single mutation. -/
theorem neat_enabled_subgraph_cycle :
    has_enabled_cycle neatStart = false ∧
    (add_connection neatStep1 1 0 1 0).2 = true ∧
    has_enabled_cycle neatStep2 = false ∧
    (add_connection neatStep2 0 1 2 0).2 = true ∧
    has_enabled_cycle neatStep3 = true ∧
    (toggle_connection neatStep2 0).2 = true ∧
    has_enabled_cycle (toggle_connection neatStep2 0).1 = true := by
  refine ⟨rfl, rfl, rfl, rfl, rfl, rfl, rfl⟩

/-- The PermuIndividual invariant checked by _assert_is_perm
(src/evopy/individual/permutation/base.py lines 143-146): sorting the array
yields arange(size), i.e. the array is a rearrangement of 0..N-1, which for
an array of length N is exactly being a bijection onto that set. -/
def IsPermArray (l : List ℕ) (N : ℕ) : Prop :=
  l.Perm (List.range N)

instance (l : List ℕ) (N : ℕ) : Decidable (IsPermArray l N) :=
  inferInstanceAs (Decidable (l.Perm (List.range N)))

/-- Python/numpy slice l[a:b] (step 1, non-negative bounds, clamped). -/
def pySlice (l : List α) (a b : ℕ) : List α :=
  (l.drop a).take (b - a)

/-- numpy slice assignment l[a:b] = src. numpy requires len(src) to equal
the slice length, evaluates src from the original buffer before writing,
and treats b below a as the empty slice (no change). -/
def sliceAssign (l : List α) (a b : ℕ) (src : List α) : List α :=
  l.take a ++ src ++ l.drop (max a b)

namespace PermuIndividual

/-- swap (src/evopy/individual/permutation/base.py lines 51-60): the python
tuple assignment reads both elements before writing them back exchanged. -/
def swap (l : List ℕ) (idx1 idx2 : ℕ) : List ℕ :=
  (l.set idx1 (l.getD idx2 0)).set idx2 (l.getD idx1 0)

/-- move_element (src/evopy/individual/permutation/base.py lines 62-91):
rotate the segment between idx and new_pos, placing the element of idx at
new_pos. Each branch mirrors one numpy slice assignment of the source; the
branch taken for new_pos at or beyond the array size is reachable only with
out-of-range arguments. -/
def move_element (l : List ℕ) (idx new_pos : ℕ) : List ℕ × Bool :=
  if idx = new_pos then (l, false)
  else
    let new_elt := l.getD idx 0
    let l2 :=
      if idx < new_pos then
        if new_pos ≥ l.length then
          let l3 := sliceAssign l idx (l.length - 1) (pySlice l (idx + 1) l.length)
          l3.set (l3.length - 1) (l3.getD 0 0)
        else
          sliceAssign l idx new_pos (pySlice l (idx + 1) (new_pos + 1))
      else
        if new_pos = 0 then
          let l3 := sliceAssign l 1 (idx + 1) (pySlice l 0 idx)
          l3.set 0 (l3.getD (l3.length - 1) 0)
        else
          sliceAssign l new_pos (idx + 1) (pySlice l (new_pos - 1) idx)
    (l2.set new_pos new_elt, true)

/-- move_elements (src/evopy/individual/permutation/base.py lines 93-125):
move the length-long segment starting at idx (wrapping around the end) by
dec positions, optionally reversing it; the arrays permutation_less and
permutation_removed are the complement and the segment, and the result is
their re-concatenation. dec is remapped to 1 + dec mod (size - length - 1)
before use (with size - length - 1 = 0 python would raise
ZeroDivisionError; natural modulo by 0 is the identity, a case excluded by
the documented argument ranges). -/
def move_elements (l : List ℕ) (idx dec0 seg_length : ℕ) (rev : Bool) :
    List ℕ × Bool :=
  let dec := dec0 % (l.length - seg_length - 1) + 1
  if seg_length = 0 ∨ dec = 0 then (l, false)
  else
    let dec_idx_l := idx + seg_length - l.length
    let permutation_less :=
      l.drop (idx + seg_length - dec_idx_l) ++ pySlice l dec_idx_l idx
    let permutation_removed :=
      pySlice l idx (idx + seg_length - dec_idx_l) ++ l.take dec_idx_l
    let permutation_removed :=
      if rev then permutation_removed.reverse else permutation_removed
    (permutation_less.take dec ++ permutation_removed ++
      permutation_less.drop dec, true)

/-- reverse (src/evopy/individual/permutation/base.py lines 127-132):
reverse the closed segment idx1..idx2 in place. -/
def reverse (l : List ℕ) (idx1 idx2 : ℕ) : List ℕ :=
  sliceAssign l idx1 (idx2 + 1) ((pySlice l idx1 (idx2 + 1)).reverse)

/-- shuffle (src/evopy/individual/permutation/base.py lines 134-141):
replace the closed segment idx1..idx2 by a random rearrangement of itself;
the drawn rearrangement is passed explicitly. -/
def shuffle (l : List ℕ) (idx1 idx2 : ℕ) (shuffled : List ℕ) : List ℕ :=
  sliceAssign l idx1 (idx2 + 1) shuffled

end PermuIndividual

/-- PermuCrosserPMX._cross_points (src/evopy/crosser/permutation/pmx.py
lines 33-46): indices is the inverse of the incoming permutation
(indices[permutation] = arange), built once before the loop and not updated
by the swaps (so later iterations may consult stale positions); each loop
iteration for position i = (idx1 + k) mod N with a value mismatch swaps
positions i and indices[ind2[i]] with the same python tuple assignment as
PermuIndividual.swap. -/
def pmx_cross_points (perm : List ℕ) (ind2 : List ℕ) (idx1 idx2 : ℕ) :
    List ℕ :=
  let indices := fun v => perm.indexOf v
  let positions := (List.range ((idx2 : ℤ) - idx1).natAbs.succ).map
    (fun k => (idx1 + k) % perm.length)
  positions.foldl
    (fun p i =>
      if p.getD i 0 ≠ ind2.getD i 0 then
        PermuIndividual.swap p i (indices (ind2.getD i 0))
      else p)
    perm

theorem getD_eq_getElem_zero (l : List ℕ) (i : ℕ) (h : i < l.length) :
    l.getD i 0 = l[i] := by
  simp [List.getD_eq_getElem?_getD, List.getElem?_eq_getElem h]

theorem perm_exchange (A M T : List ℕ) (x y : ℕ) :
    (A ++ (x :: (M ++ y :: T))).Perm (A ++ (y :: (M ++ x :: T))) := by
  apply List.Perm.append_left
  have h1 : (x :: (M ++ y :: T)).Perm (x :: (y :: (M ++ T))) :=
    List.Perm.cons x List.perm_middle
  have h2 : (x :: (y :: (M ++ T))).Perm (y :: (x :: (M ++ T))) :=
    List.Perm.swap y x _
  have h3 : (y :: (x :: (M ++ T))).Perm (y :: (M ++ x :: T)) :=
    List.Perm.cons y List.perm_middle.symm
  exact (h1.trans h2).trans h3

theorem decompose_two (l : List ℕ) (a b : ℕ) (ha : a < l.length)
    (hab : a < b) (hb : b < l.length) :
    l = l.take a ++
      l[a] :: ((l.drop (a + 1)).take (b - a - 1) ++ l[b] :: l.drop (b + 1)) := by
  conv_lhs => rw [← List.take_append_drop a l]
  rw [List.drop_eq_getElem_cons (by omega : a < l.length)]
  congr 1
  congr 1
  conv_lhs => rw [← List.take_append_drop (b - a - 1) (l.drop (a + 1))]
  rw [List.drop_drop]
  have h1 : a + 1 + (b - a - 1) = b := by omega
  rw [h1, List.drop_eq_getElem_cons hb]

theorem set_set_decompose (l : List ℕ) (a b x y : ℕ) (hab : a < b)
    (hb : b < l.length) :
    (l.set a x).set b y = l.take a ++
      x :: ((l.drop (a + 1)).take (b - a - 1) ++ y :: l.drop (b + 1)) := by
  rw [List.set_eq_take_cons_drop x (by omega : a < l.length)]
  rw [List.set_append]
  have hta : (l.take a).length = a := by
    rw [List.length_take]
    omega
  rw [if_neg (by rw [hta]; omega), hta]
  congr 1
  have hba : b - a = (b - a - 1) + 1 := by omega
  rw [hba]
  show x :: (l.drop (a + 1)).set (b - a - 1) y =
    x :: ((l.drop (a + 1)).take (b - a - 1) ++ y :: l.drop (b + 1))
  congr 1
  have hlt : b - a - 1 < (l.drop (a + 1)).length := by
    rw [List.length_drop]
    omega
  rw [List.set_eq_take_cons_drop y hlt]
  rw [List.drop_drop]
  have h2 : a + 1 + (b - a - 1 + 1) = b + 1 := by omega
  rw [h2]

theorem set_getElem_self_eq (l : List ℕ) (i : ℕ) (h : i < l.length) :
    l.set i l[i] = l := by
  rw [List.set_eq_take_cons_drop _ h, ← List.drop_eq_getElem_cons h,
    List.take_append_drop]

theorem swap_perm (l : List ℕ) (i j : ℕ) (hi : i < l.length)
    (hj : j < l.length) : (PermuIndividual.swap l i j).Perm l := by
  unfold PermuIndividual.swap
  rcases Nat.lt_trichotomy i j with hij | rfl | hij
  · rw [getD_eq_getElem_zero l j hj, getD_eq_getElem_zero l i hi]
    rw [set_set_decompose l i j _ _ hij hj]
    conv_rhs => rw [decompose_two l i j hi hij hj]
    exact perm_exchange _ _ _ _ _
  · rw [getD_eq_getElem_zero l i hi, List.set_set,
      set_getElem_self_eq l i hi]
  · rw [getD_eq_getElem_zero l j hj, getD_eq_getElem_zero l i hi]
    rw [List.set_comm _ _ _ (by omega : i ≠ j)]
    rw [set_set_decompose l j i _ _ hij hi]
    conv_rhs => rw [decompose_two l j i hj hij hi]
    exact perm_exchange _ _ _ _ _

theorem drop_split (l : List ℕ) (a b : ℕ) (hab : a ≤ b) :
    l.drop a = (l.drop a).take (b - a) ++ l.drop b := by
  conv_lhs => rw [← List.take_append_drop (b - a) (l.drop a)]
  rw [List.drop_drop]
  have h : a + (b - a) = b := by omega
  rw [h]

theorem pySlice_decompose (l : List ℕ) (a b : ℕ) (hab : a ≤ b) :
    l = l.take a ++ pySlice l a b ++ l.drop b := by
  conv_lhs => rw [← List.take_append_drop a l, drop_split l a b hab]
  rw [List.append_assoc]
  rfl

theorem sliceAssign_perm (l : List ℕ) (a b : ℕ) (src : List ℕ) (hab : a ≤ b)
    (hsrc : src.Perm (pySlice l a b)) :
    (sliceAssign l a b src).Perm l := by
  unfold sliceAssign
  rw [Nat.max_eq_right hab]
  conv_rhs => rw [pySlice_decompose l a b hab]
  exact (hsrc.append_left (l.take a)).append_right (l.drop b)

theorem set_append_length (P : List ℕ) (c x : ℕ) (T : List ℕ) :
    (P ++ c :: T).set P.length x = P ++ x :: T := by
  rw [List.set_append, if_neg (by omega), Nat.sub_self]
  rfl

theorem set_append_length_at (P : List ℕ) (c x : ℕ) (T : List ℕ) (n : ℕ)
    (hn : n = P.length) : (P ++ c :: T).set n x = P ++ x :: T := by
  subst hn
  exact set_append_length P c x T

theorem take_one_eq (l : List ℕ) (h : 0 < l.length) : l.take 1 = [l[0]] := by
  rw [List.take_succ]
  simp [List.getElem?_eq_getElem h]

theorem move_element_perm (l : List ℕ) (idx new_pos : ℕ)
    (hi : idx < l.length) (hp : new_pos < l.length) :
    (PermuIndividual.move_element l idx new_pos).1.Perm l := by
  unfold PermuIndividual.move_element
  by_cases heq : idx = new_pos
  · simp [heq]
  · rw [if_neg heq]
    simp only
    rw [getD_eq_getElem_zero l idx hi]
    by_cases hlt : idx < new_pos
    · rw [if_pos hlt, if_neg (by omega : ¬ new_pos ≥ l.length)]
      have hSlen : (pySlice l (idx + 1) (new_pos + 1)).length = new_pos - idx := by
        unfold pySlice
        rw [List.length_take, List.length_drop]
        omega
      have hPlen : new_pos =
          (l.take idx ++ pySlice l (idx + 1) (new_pos + 1)).length := by
        rw [List.length_append, List.length_take, hSlen]
        omega
      have hsa : sliceAssign l idx new_pos (pySlice l (idx + 1) (new_pos + 1)) =
          (l.take idx ++ pySlice l (idx + 1) (new_pos + 1)) ++ l.drop new_pos := by
        unfold sliceAssign
        rw [Nat.max_eq_right (Nat.le_of_lt hlt)]
      rw [hsa, List.drop_eq_getElem_cons hp,
        set_append_length_at _ _ _ _ _ hPlen]
      have hl : l = l.take idx ++
          (l[idx] :: (pySlice l (idx + 1) (new_pos + 1) ++ l.drop (new_pos + 1))) := by
        conv_lhs => rw [← List.take_append_drop idx l,
          List.drop_eq_getElem_cons hi]
        congr 2
        unfold pySlice
        exact drop_split l (idx + 1) (new_pos + 1) (by omega)
      conv_rhs => rw [hl]
      rw [List.append_assoc]
      exact List.Perm.append_left (l.take idx) List.perm_middle
    · rw [if_neg hlt]
      have hpi : new_pos < idx := by omega
      by_cases hz : new_pos = 0
      · rw [if_pos hz]
        subst hz
        rw [List.set_set]
        have h0 : 0 < l.length := by omega
        have hl3 : sliceAssign l 1 (idx + 1) (pySlice l 0 idx) =
            l[0] :: (l.take idx ++ l.drop (idx + 1)) := by
          unfold sliceAssign
          rw [Nat.max_eq_right (by omega), take_one_eq l h0]
          have hslice : pySlice l 0 idx = l.take idx := rfl
          rw [hslice]
          rfl
        rw [hl3]
        have hset : (l[0] :: (l.take idx ++ l.drop (idx + 1))).set 0 l[idx] =
            l[idx] :: (l.take idx ++ l.drop (idx + 1)) := rfl
        rw [hset]
        conv_rhs => rw [← List.take_append_drop idx l,
          List.drop_eq_getElem_cons hi]
        exact List.perm_middle.symm
      · rw [if_neg hz]
        have hps : new_pos - 1 < l.length := by omega
        have hSdec : pySlice l (new_pos - 1) idx =
            l[new_pos - 1] :: (l.drop new_pos).take (idx - new_pos) := by
          unfold pySlice
          rw [List.drop_eq_getElem_cons hps]
          have harith : idx - (new_pos - 1) = (idx - new_pos) + 1 := by omega
          rw [harith, List.take_succ_cons]
          have harith2 : new_pos - 1 + 1 = new_pos := by omega
          rw [harith2]
        have hsa : sliceAssign l new_pos (idx + 1) (pySlice l (new_pos - 1) idx) =
            l.take new_pos ++
              (l[new_pos - 1] ::
                ((l.drop new_pos).take (idx - new_pos) ++ l.drop (idx + 1))) := by
          unfold sliceAssign
          rw [Nat.max_eq_right (by omega), hSdec]
          rw [List.append_assoc]
          rfl
        have hPlen : new_pos = (l.take new_pos).length := by
          rw [List.length_take]
          omega
        rw [hsa, set_append_length_at _ _ _ _ _ hPlen]
        have hl : l = l.take new_pos ++
            ((l.drop new_pos).take (idx - new_pos) ++
              (l[idx] :: l.drop (idx + 1))) := by
          conv_lhs => rw [← List.take_append_drop new_pos l,
            drop_split l new_pos idx (by omega)]
          congr 2
          exact List.drop_eq_getElem_cons hi
        conv_rhs => rw [hl]
        exact List.Perm.append_left (l.take new_pos) List.perm_middle.symm

theorem perm_take_drop_mid (L R : List ℕ) (dec : ℕ) :
    ((L.take dec ++ R) ++ L.drop dec).Perm (L ++ R) := by
  rw [List.append_assoc]
  refine List.Perm.trans (List.Perm.append_left _ List.perm_append_comm) ?_
  rw [← List.append_assoc, List.take_append_drop]

theorem pySlice_append_slices (l : List ℕ) (d idx e : ℕ) (h1 : d ≤ idx)
    (h2 : idx ≤ e) : pySlice l d idx ++ pySlice l idx e = pySlice l d e := by
  unfold pySlice
  have he : e - d = (idx - d) + (e - idx) := by omega
  rw [he, List.take_add]
  congr 2
  rw [List.drop_drop]
  congr 1
  omega

theorem move_elements_perm (l : List ℕ) (idx dec0 seg_length : ℕ) (rev : Bool)
    (hidx : idx < l.length) (hlen1 : 1 ≤ seg_length)
    (hlen2 : seg_length + 2 ≤ l.length) :
    (PermuIndividual.move_elements l idx dec0 seg_length rev).1.Perm l := by
  have hcond : ¬ (seg_length = 0 ∨
      dec0 % (l.length - seg_length - 1) + 1 = 0) := by
    push_neg
    exact ⟨by omega, by omega⟩
  simp only [PermuIndividual.move_elements]
  rw [if_neg hcond]
  have hd : idx + seg_length - l.length ≤ idx := by omega
  have hde : idx + seg_length - l.length ≤
      idx + seg_length - (idx + seg_length - l.length) := by omega
  have hie : idx ≤ idx + seg_length - (idx + seg_length - l.length) := by omega
  have h3 : ((l.drop (idx + seg_length - (idx + seg_length - l.length)) ++
      pySlice l (idx + seg_length - l.length) idx) ++
      (pySlice l idx (idx + seg_length - (idx + seg_length - l.length)) ++
        l.take (idx + seg_length - l.length))).Perm l := by
    rw [List.perm_iff_count]
    intro a
    conv_rhs => rw [pySlice_decompose l (idx + seg_length - l.length)
        (idx + seg_length - (idx + seg_length - l.length)) hde,
      ← pySlice_append_slices l (idx + seg_length - l.length) idx
        (idx + seg_length - (idx + seg_length - l.length)) hd hie]
    simp [List.count_append]
    omega
  refine List.Perm.trans ?_ h3
  refine List.Perm.trans (perm_take_drop_mid _ _ _) ?_
  apply List.Perm.append_left
  cases rev
  · simp
  · rw [if_pos rfl]
    exact List.reverse_perm _

theorem reverse_seg_perm (l : List ℕ) (i1 i2 : ℕ) (h12 : i1 ≤ i2) :
    (PermuIndividual.reverse l i1 i2).Perm l := by
  unfold PermuIndividual.reverse
  exact sliceAssign_perm l i1 (i2 + 1) _ (by omega) (List.reverse_perm _)

theorem shuffle_perm (l : List ℕ) (i1 i2 : ℕ) (s : List ℕ) (h12 : i1 ≤ i2)
    (hs : s.Perm (pySlice l i1 (i2 + 1))) :
    (PermuIndividual.shuffle l i1 i2 s).Perm l := by
  unfold PermuIndividual.shuffle
  exact sliceAssign_perm l i1 (i2 + 1) s (by omega) hs

theorem foldl_swap_perm (f : ℕ → ℕ) (ind2 : List ℕ) :
    ∀ (ps : List ℕ) (p l0 : List ℕ), p.Perm l0 →
    (∀ i ∈ ps, i < l0.length) →
    (∀ i ∈ ps, f (ind2.getD i 0) < l0.length) →
    (ps.foldl
      (fun q i =>
        if q.getD i 0 ≠ ind2.getD i 0 then
          PermuIndividual.swap q i (f (ind2.getD i 0))
        else q) p).Perm l0
  | [], p, l0, hp, _, _ => hp
  | i :: rest, p, l0, hp, his, hfs => by
    rw [List.foldl_cons]
    apply foldl_swap_perm f ind2 rest _ l0 ?_
      (fun j hj => his j (List.mem_cons_of_mem i hj))
      (fun j hj => hfs j (List.mem_cons_of_mem i hj))
    by_cases hc : p.getD i 0 ≠ ind2.getD i 0
    · rw [if_pos hc]
      refine (swap_perm p i (f (ind2.getD i 0)) ?_ ?_).trans hp
      · rw [hp.length_eq]
        exact his i (List.mem_cons_self i rest)
      · rw [hp.length_eq]
        exact hfs i (List.mem_cons_self i rest)
    · rw [if_neg hc]
      exact hp

theorem pmx_cross_points_perm (perm ind2 : List ℕ) (idx1 idx2 N : ℕ)
    (hN : 0 < N) (hperm : IsPermArray perm N) (hind2 : IsPermArray ind2 N) :
    (pmx_cross_points perm ind2 idx1 idx2).Perm perm := by
  have hplen : perm.length = N := by
    rw [hperm.length_eq, List.length_range]
  have hilen : ind2.length = N := by
    rw [hind2.length_eq, List.length_range]
  simp only [pmx_cross_points]
  apply foldl_swap_perm (fun v => List.indexOf v perm) ind2 _ perm perm
    (List.Perm.refl perm)
  · intro i hi
    rw [List.mem_map] at hi
    obtain ⟨k, _, rfl⟩ := hi
    exact Nat.mod_lt _ (by omega)
  · intro i hi
    rw [List.mem_map] at hi
    obtain ⟨k, _, rfl⟩ := hi
    have hmod : (idx1 + k) % perm.length < perm.length :=
      Nat.mod_lt _ (by omega)
    have hv : ind2.getD ((idx1 + k) % perm.length) 0 ∈ ind2 := by
      rw [getD_eq_getElem_zero ind2 _ (by omega)]
      exact List.getElem_mem _
    have hv2 : ind2.getD ((idx1 + k) % perm.length) 0 ∈ perm := by
      have h1 := hind2.mem_iff.mp hv
      exact hperm.mem_iff.mpr h1
    rw [List.indexOf_lt_length]
    exact hv2

/-- One operator application of the permutation claims: the five mutation
operators of PermuIndividual and the PMX crossover step, with every random
draw passed as an explicit argument. -/
inductive PermuOp where
  | swap (idx1 idx2 : ℕ)
  | move_element (idx new_pos : ℕ)
  | move_elements (idx dec seg_length : ℕ) (rev : Bool)
  | reverse (idx1 idx2 : ℕ)
  | shuffle (idx1 idx2 : ℕ) (shuffled : List ℕ)
  | pmx (ind2 : List ℕ) (idx1 idx2 : ℕ)

/-- Apply the operator to the permutation array. -/
def PermuOp.apply : PermuOp → List ℕ → List ℕ
  | .swap i j, l => PermuIndividual.swap l i j
  | .move_element i p, l => (PermuIndividual.move_element l i p).1
  | .move_elements i d s r, l => (PermuIndividual.move_elements l i d s r).1
  | .reverse i j, l => PermuIndividual.reverse l i j
  | .shuffle i j s, l => PermuIndividual.shuffle l i j s
  | .pmx ind2 i j, l => pmx_cross_points l ind2 i j

/-- In-range argument discipline of the operators, following the documented
argument ranges of the source docstrings: indices below the array length,
move_elements segment lengths between 1 and size - 2, ordered segment
bounds, the shuffle draw a rearrangement of the target slice, and the
second PMX parent a permutation of the same size. -/
def PermuOp.Valid : PermuOp → List ℕ → Prop
  | .swap i j, l => i < l.length ∧ j < l.length
  | .move_element i p, l => i < l.length ∧ p < l.length
  | .move_elements i _ s _, l => i < l.length ∧ 1 ≤ s ∧ s + 2 ≤ l.length
  | .reverse i j, l => i ≤ j ∧ j < l.length
  | .shuffle i j s, l => i ≤ j ∧ j < l.length ∧ s.Perm (pySlice l i (j + 1))
  | .pmx ind2 _ _, l => 0 < l.length ∧ IsPermArray ind2 l.length

/-- C3: every PermuIndividual mutation operator (swap, move_element,
move_elements with optional reverse, reverse, shuffle) with in-range
arguments, and the PMX crossover step, map an array that is a bijection
onto 0..N-1 to another bijection onto 0..N-1. -/
theorem permutation_ops_preserve_bijection (op : PermuOp) (l : List ℕ)
    (N : ℕ) (hv : op.Valid l) (hp : IsPermArray l N) :
    IsPermArray (op.apply l) N := by
  have hperm : (op.apply l).Perm l := by
    cases op with
    | swap i j => exact swap_perm l i j hv.1 hv.2
    | move_element i p => exact move_element_perm l i p hv.1 hv.2
    | move_elements i d s r =>
      exact move_elements_perm l i d s r hv.1 hv.2.1 hv.2.2
    | reverse i j => exact reverse_seg_perm l i j hv.1
    | shuffle i j s => exact shuffle_perm l i j s hv.1 hv.2.2
    | pmx ind2 i j =>
      have hlen : l.length = N := by
        rw [hp.length_eq, List.length_range]
      exact pmx_cross_points_perm l ind2 i j l.length hv.1
        (by rw [hlen]; exact hp) hv.2
  exact hperm.trans hp

/-- Witness for C3: the PMX step with parents (0 1 2) and (1 2 0) over the
cut span 0..1, applied to a size-3 permutation. -/
theorem permutation_ops_preserve_bijection_witness :
    PermuOp.Valid (.pmx [1, 2, 0] 0 1) [0, 1, 2] ∧
    IsPermArray (PermuOp.apply (.pmx [1, 2, 0] 0 1) [0, 1, 2]) 3 := by
  have hv : PermuOp.Valid (.pmx [1, 2, 0] 0 1) [0, 1, 2] :=
    ⟨by decide, by decide⟩
  exact ⟨hv, permutation_ops_preserve_bijection _ _ 3 hv (by decide)⟩
